import Mathlib

/-
Verification development for the mkcbt comic-book archiver (src/main.rs).

The source is shallowly embedded as follows:
* Byte strings (Rust `[u8]` / `String` contents) are `List Nat` with elements
  below 256.
* `format!("{:0w$}", n)`, `format!("{:0wo}", n)` and `format!("{:08x}", n)` are
  `fmtPad 10 w n`, `fmtPad 8 w n` and `fmtPad 16 8 n`: the base-b digit string
  of `n`, left-padded with ASCII `'0'` up to the requested width (never
  truncated, exactly like Rust's formatter).
* `slice[a..b].copy_from_slice(v)` on a byte array is `setRange l a v`:
  overwrite the bytes of `l` starting at offset `a` with `v`.
* Fallible operations (Rust panics / `?`) are `Option`.
-/

namespace Mkcbt

/-- Base-`base` digit expansion of `n`, most significant digit first, with
explicit structural fuel so that it reduces inside the kernel.  Empty for
`n = 0` (the leading-zero-free expansion). -/
def reprAux (base : Nat) : Nat → Nat → List Nat
  | 0, _ => []
  | fuel + 1, n => if n = 0 then [] else reprAux base fuel (n / base) ++ [n % base]

/-- Digit string of `n` in base `base`, as Rust renders integers: `0` prints
as the single digit `0`, other numbers with no leading zero. -/
def natRepr (base n : Nat) : List Nat :=
  if n = 0 then [0] else reprAux base n n

/-- Left-pad a digit list with zeros up to width `w` (no truncation). -/
def padZeros (w : Nat) (ds : List Nat) : List Nat :=
  List.replicate (w - ds.length) 0 ++ ds

/-- ASCII code of a digit, lowercase for values 10..15, as Rust's `{:x}`. -/
def digitChar (d : Nat) : Nat :=
  if d < 10 then 48 + d else 87 + d

/-- Model of Rust's zero-padded integer formatting `format!("{:0w$}", n)`
(base 10), `{:0wo}` (base 8) and `{:08x}` (base 16): digit string of `n`
left-padded with ASCII `'0'` to width `w`, longer than `w` when `n` needs
more digits. -/
def fmtPad (base w n : Nat) : List Nat :=
  (padZeros w (natRepr base n)).map digitChar

/-- Model of `dst[off..off+v.length].copy_from_slice(v)` on a byte array:
overwrite `l` from offset `off` with the bytes of `v`. -/
def setRange (l : List Nat) (off : Nat) (v : List Nat) : List Nat :=
  l.take off ++ v ++ l.drop (off + v.length)

namespace SimpleTarArchive

/-- Step of `write_file` (main.rs line 112): blank 512-byte header, then the
file name copied to offset 0. -/
def hdrName (name : List Nat) : List Nat :=
  setRange (List.replicate 512 0) 0 name

/-- Line 113: permissions `"0000444"` at offset 100. -/
def hdrMode (name : List Nat) : List Nat :=
  setRange (hdrName name) 100 [48, 48, 48, 48, 52, 52, 52]

/-- Line 114: owner ID `"0000000"` at offset 108. -/
def hdrOwner (name : List Nat) : List Nat :=
  setRange (hdrMode name) 108 [48, 48, 48, 48, 48, 48, 48]

/-- Line 115: group ID `"0000000"` at offset 116. -/
def hdrGroup (name : List Nat) : List Nat :=
  setRange (hdrOwner name) 116 [48, 48, 48, 48, 48, 48, 48]

/-- Line 116: file size as an 11-digit octal string at offset 124. -/
def hdrSize (name : List Nat) (fileLen : Nat) : List Nat :=
  setRange (hdrGroup name) 124 (fmtPad 8 11 fileLen)

/-- Line 117: modification time as an 11-digit octal string at offset 136. -/
def hdrMtime (name : List Nat) (fileLen mtime : Nat) : List Nat :=
  setRange (hdrSize name fileLen) 136 (fmtPad 8 11 mtime)

/-- Line 118: eight-space checksum placeholder at offset 148. -/
def hdrCksumBlank (name : List Nat) (fileLen mtime : Nat) : List Nat :=
  setRange (hdrMtime name fileLen mtime) 148 (List.replicate 8 32)

/-- Line 119: link-indicator byte `'0'` at offset 156. -/
def hdrType (name : List Nat) (fileLen mtime : Nat) : List Nat :=
  setRange (hdrCksumBlank name fileLen mtime) 156 [48]

/-- Line 120: UStar magic `"ustar"` at offset 257. -/
def hdrMagic (name : List Nat) (fileLen mtime : Nat) : List Nat :=
  setRange (hdrType name fileLen mtime) 257 [117, 115, 116, 97, 114]

/-- Line 121: UStar version `"00"` at offset 263.  This is the complete header
as it stands when the checksum is computed (line 124): the checksum field
still holds its eight-space placeholder. -/
def headerPre (name : List Nat) (fileLen mtime : Nat) : List Nat :=
  setRange (hdrMagic name fileLen mtime) 263 [48, 48]

/-- Line 124: `let checksum: u32 = header.iter().map(|x| *x as u32).sum()`. -/
def tarChecksum (h : List Nat) : Nat := h.sum

/-- Line 125: `format!("{:06o}\0", checksum)` — six octal digits and a NUL. -/
def checksumField (c : Nat) : List Nat := fmtPad 8 6 c ++ [0]

/-- Line 126: the checksum string written back at offset 148 (seven bytes, so
the eighth placeholder byte, the space at offset 155, survives). -/
def headerFinal (name : List Nat) (fileLen mtime : Nat) : List Nat :=
  setRange (headerPre name fileLen mtime) 148
    (checksumField (tarChecksum (headerPre name fileLen mtime)))

/-- Header construction of `write_file`, with each Rust panic modelled as
`none`: `header[..len].copy_from_slice` panics when `len > 512`
(slice out of range), and every `copy_from_slice` into a fixed-width field
panics when the formatted string is longer than the field. -/
def mkHeader (name : List Nat) (fileLen mtime : Nat) : Option (List Nat) :=
  if name.length ≤ 512 ∧ (fmtPad 8 11 fileLen).length = 11
      ∧ (fmtPad 8 11 mtime).length = 11
      ∧ (checksumField (tarChecksum (headerPre name fileLen mtime))).length = 7
  then some (headerFinal name fileLen mtime)
  else none

/-- Number of padding bytes appended after the payload (lines 135-138):
`512 - file_len % 512` when the length is not a multiple of 512, nothing
otherwise. -/
def padLen (n : Nat) : Nat := if n % 512 = 0 then 0 else 512 - n % 512

/-- Byte stream appended to the archive by one `write_file` call
(lines 105-141): 512-byte header, then the file content, then zero padding
to the next 512-byte boundary.  `content` is the full byte content of the
source file, so `file_len = content.length`. -/
def write_file (name content : List Nat) (mtime : Nat) : Option (List Nat) :=
  match mkHeader name content.length mtime with
  | none => none
  | some hdr => some (hdr ++ content ++ List.replicate (padLen content.length) 0)

/-- Line 89: `const ZEROS: [u8; 1024] = [0; 1024]`. -/
def ZEROS : List Nat := List.replicate 1024 0

/-- Model of `impl Drop for SimpleTarArchive` (lines 144-156): given the bytes
already written to the sink, append the 1024-byte end-of-archive marker and
flush.  The boolean records that `flush` was called. -/
def dropFlush (out : List Nat) : List Nat × Bool := (out ++ ZEROS, true)

end SimpleTarArchive

/-- The conversion mode of the run (main.rs lines 178-182), decided once from
the command line (lines 240-243): `Avif` when the first argument is
`--avif`, `Copy` otherwise.  The same value is passed to every
`Task::new` call of the run. -/
inductive Conversion where
  | Copy
  | Avif
deriving DecidableEq

/-- Abstraction of one input file together with the behaviour of the external
encoder on it: `srcExt` is `Path::extension()` of the input (without the
dot), `content` its byte content, `convOutput` the bytes `avifenc` would
write when transcoding it, `convSuccess` whether that process exits
successfully, and `latency` how long the process takes (the pipeline's
output must not depend on it). -/
structure InputFile where
  srcExt : Option (List Nat)
  content : List Nat
  convOutput : List Nat
  convSuccess : Bool
  latency : Nat
deriving DecidableEq

/-- Model of `struct Task` (lines 184-188).  The `path` field is abstracted
by the extension and the eventual byte content of the file it names;
`convert_proc` models the `Option<Child>` process handle by the eventual
exit-status success of that process (`none` when no process was
spawned). -/
structure Task where
  pathExt : Option (List Nat)
  pathContent : List Nat
  conversion : Conversion
  convert_proc : Option Bool
deriving DecidableEq

/-- Model of `Task::new` (lines 190-208).  For `Copy` the task keeps the
input path and spawns nothing; for `Avif` it generates a fresh `.avif`
output path in the work directory and spawns `avifenc`, storing the
handle.  The choice between the two arms is exactly the `conversion`
argument — no property of the input path (in particular not its
extension) is inspected. -/
def Task.new (inp : InputFile) (conversion : Conversion) : Task :=
  match conversion with
  | Conversion.Copy =>
      { pathExt := inp.srcExt, pathContent := inp.content,
        conversion := Conversion.Copy, convert_proc := none }
  | Conversion.Avif =>
      { pathExt := some [97, 118, 105, 102], pathContent := inp.convOutput,
        conversion := Conversion.Avif, convert_proc := some inp.convSuccess }

/-- ASCII lowercasing of one byte, as `to_ascii_lowercase` (line 220). -/
def lowerByte (b : Nat) : Nat := if 65 ≤ b ∧ b ≤ 90 then b + 32 else b

/-- Extension attached to the archive entry name by `Task::finish`
(lines 217-225): for `Copy` a dot plus the lowercased extension of the
stored path (empty when the path has none), for `Avif` the fixed
`".avif"`. -/
def Task.archiveExt (t : Task) : List Nat :=
  match t.conversion with
  | Conversion.Copy =>
      match t.pathExt with
      | some e => 46 :: e.map lowerByte
      | none => []
  | Conversion.Avif => [46, 97, 118, 105, 102]

/-- One archive entry as produced by the pipeline: the name handed to
`write_file` and the byte content of the file written under it. -/
structure Entry where
  name : List Nat
  payload : List Nat
deriving DecidableEq

/-- Entry written for a task finished at 1-based `index` with zero-pad width
`width` (line 226): the name is `format!("{:0fill$}{ext}", index)`. -/
def Task.entry (t : Task) (index width : Nat) : Entry :=
  { name := fmtPad 10 width index ++ t.archiveExt, payload := t.pathContent }

/-- Model of `Task::finish` (lines 210-231): wait for the conversion process
if there is one; when it reports failure the program prints a diagnostic
and calls `std::process::exit(1)` (modelled as `none`); otherwise the
entry is written to the archive. -/
def Task.finish (t : Task) (index width : Nat) : Option Entry :=
  match t.convert_proc with
  | some false => none
  | _ => some (t.entry index width)

/-- Lines 227-229 of `Task::finish`: the file at `self.path` is removed
after the archive write exactly when the task is not a `Copy` task. -/
def Task.removesSource (t : Task) : Bool :=
  match t.conversion with
  | Conversion.Copy => false
  | Conversion.Avif => true

/-- Success of a task's conversion process: `Task::finish` aborts the run
exactly when the stored handle reports failure. -/
def Task.ok (t : Task) : Prop := t.convert_proc ≠ some false

/-- Result of the processing phase of `run`.  `ok` carries the entries
written, in order.  `exited code entries workDirRemoved` models
`std::process::exit(code)`: the entries already written when the process
died, and whether `TempDir::drop` ran first — `std::process::exit`
terminates the process without running destructors, so the flag is `false`
on every such path and the scoped work directory is left behind. -/
inductive Outcome where
  | ok (entries : List Entry)
  | exited (code : Nat) (entries : List Entry) (workDirRemoved : Bool)
deriving DecidableEq

/-- Model of the drain loop of `run` (lines 332-336): finish every remaining
queued task in FIFO order, numbering from `index + 1`.  The second
component is the trace of in-flight job counts observed while each task is
being finished (the task being finished plus those still queued). -/
def finishRest (width : Nat) : List Task → Nat → List Entry → Outcome × List Nat
  | [], _, acc => (Outcome.ok acc.reverse, [])
  | t :: ts, index, acc =>
    match t.finish (index + 1) width with
    | none => (Outcome.exited 1 acc.reverse false, [ts.length + 1])
    | some e =>
      let r := finishRest width ts (index + 1) (e :: acc)
      (r.1, (ts.length + 1) :: r.2)

/-- Model of the main loop of `run` (lines 321-331): while inputs remain,
push a task for the next input at the back of the queue (`Task::new`
spawns the encoder at this point), then pop the front task and finish it.
The two non-empty arms distinguish whether the popped task is the one just
pushed.  The trace records the in-flight count right after each creation
(the later finish happens at that same count). -/
def processLoop (conversion : Conversion) (width : Nat) :
    List InputFile → List Task → Nat → List Entry → Outcome × List Nat
  | [], queue, index, acc => finishRest width queue index acc
  | inp :: rest, [], index, acc =>
    match (Task.new inp conversion).finish (index + 1) width with
    | none => (Outcome.exited 1 acc.reverse false, [1])
    | some e =>
      let r := processLoop conversion width rest [] (index + 1) (e :: acc)
      (r.1, 1 :: r.2)
  | inp :: rest, t :: qt, index, acc =>
    match t.finish (index + 1) width with
    | none => (Outcome.exited 1 acc.reverse false, [qt.length + 2])
    | some e =>
      let r := processLoop conversion width rest (qt ++ [Task.new inp conversion])
        (index + 1) (e :: acc)
      (r.1, (qt.length + 2) :: r.2)

/-- Zero-pad width of the archive names (line 288):
`inputs.len().to_string().len()`, the decimal digit count of the input
count. -/
def numWidth (n : Nat) : Nat := (natRepr 10 n).length

/-- Entries produced by finishing the given tasks in FIFO order, numbering
them from `index + 1`. -/
def entriesFrom (width : Nat) : Nat → List Task → List Entry
  | _, [] => []
  | index, t :: ts => t.entry (index + 1) width :: entriesFrom width (index + 1) ts

/-- Model of the processing phase of `run` (lines 313-336) for a run with
concurrency ceiling `pc` (line 314: `available_parallelism`, always at
least 1), conversion mode `conversion` and sorted input list `inputs`.
Lines 316-319 pre-create tasks for the first
`min(inputs.len(), process_count) - 1` inputs; the main loop then submits
the rest, finishing one front task per submission, and the drain loop
finishes the remainder.  The second component is the trace of in-flight
job counts at every point where a new count is reached. -/
def run (pc : Nat) (conversion : Conversion) (inputs : List InputFile) :
    Outcome × List Nat :=
  let width := numWidth inputs.length
  let prefill := min inputs.length pc - 1
  let initQueue := (inputs.take prefill).map (fun i => Task.new i conversion)
  let r := processLoop conversion width (inputs.drop prefill) initQueue 0 []
  (r.1, (List.range prefill).map (fun i => i + 1) ++ r.2)

/-- Model of `generate_unique_file_name` (lines 32-46).  The Rust function
samples `SystemTime::now().subsec_nanos()` and joins
`format!("{:08x}{ext}", time_val)` onto the directory, resampling while
the candidate path exists.  `ts k` is the `k`-th nanosecond sample the
loop observes, `existing` the set of file names present in the directory
during the loop, and `fuel` bounds the iterations (the Rust loop spins
until a sample is free).  The generated name depends only on the clock
samples and the directory contents; the job's sequence index is not an
input. -/
def generate_unique_file_name :
    Nat → Nat → (Nat → Nat) → List Nat → List (List Nat) → Option (List Nat)
  | 0, _, _, _, _ => none
  | fuel + 1, k, ts, ext, existing =>
    if fmtPad 16 8 (ts k) ++ ext ∈ existing then
      generate_unique_file_name fuel (k + 1) ts ext existing
    else some (fmtPad 16 8 (ts k) ++ ext)

/-- The `".avif"` extension handed to `generate_unique_file_name` by
`Task::new` (line 199). -/
def extAvif : List Nat := [46, 97, 118, 105, 102]

/-- Intermediate output names generated for two successive `Avif` tasks
(`Task::new`, line 199): the first call sees the work directory fresh
(`[]`); the second sees whatever `avifenc` has created by then —
`dirAtSecond` — since spawning is asynchronous and the first process may
not have created its output file yet.  `ts1` and `ts2` are the clock
samples each call observes. -/
def twoConvertNames (ts1 ts2 : Nat → Nat) (dirAtSecond : List (List Nat)) :
    Option (List Nat) × Option (List Nat) :=
  (generate_unique_file_name 8 0 ts1 extAvif [],
   generate_unique_file_name 8 0 ts2 extAvif dirAtSecond)

theorem setRange_length (l v : List Nat) (off : Nat) (h : off + v.length ≤ l.length) :
    (setRange l off v).length = l.length := by
  simp only [setRange, List.length_append, List.length_take, List.length_drop]
  omega

theorem drop_setRange_self (l v : List Nat) (off : Nat) (h : off ≤ l.length) :
    (setRange l off v).drop off = v ++ l.drop (off + v.length) := by
  have hlen : (l.take off).length = off := by
    simp [List.length_take]; omega
  simp only [setRange, List.append_assoc]
  exact List.drop_left' hlen

theorem slice_setRange_self (l v : List Nat) (off : Nat) (h : off + v.length ≤ l.length) :
    ((setRange l off v).drop off).take v.length = v := by
  rw [drop_setRange_self l v off (by omega)]
  exact List.take_left' rfl

theorem slice_setRange_after (l v : List Nat) (off a n : Nat)
    (h1 : a + n ≤ off) (h2 : off ≤ l.length) :
    ((setRange l off v).drop a).take n = (l.drop a).take n := by
  have htl : (l.take off).length = off := by
    simp [List.length_take]; omega
  rw [setRange, List.append_assoc, List.drop_append_eq_append_drop,
    List.take_append_eq_append_take, htl]
  have hda : ((l.take off).drop a).length = off - a := by
    simp [List.length_drop, List.length_take]; omega
  rw [hda]
  have h0 : n - (off - a) = 0 := by omega
  rw [h0, List.take_zero, List.append_nil, List.drop_take]
  have : (a + n) - a = n := by omega
  rw [List.take_take, Nat.min_eq_left (by omega)]

theorem mem_setRange (l v : List Nat) (off : Nat) (b : Nat) (hb : b ∈ setRange l off v) :
    b ∈ l ∨ b ∈ v := by
  simp only [setRange, List.mem_append] at hb
  rcases hb with (h | h) | h
  · exact Or.inl (List.take_subset _ _ h)
  · exact Or.inr h
  · exact Or.inl (List.drop_subset _ _ h)

theorem reprAux_length_le (base : Nat) (hb : 2 ≤ base) :
    ∀ fuel n w, n ≤ fuel → n < base ^ w → (reprAux base fuel n).length ≤ w := by
  intro fuel
  induction fuel with
  | zero => intro n w _ _; simp [reprAux]
  | succ fuel ih =>
    intro n w hn hw
    by_cases h0 : n = 0
    · simp [reprAux, h0]
    · cases w with
      | zero =>
        exfalso
        have : n < 1 := by simpa using hw
        omega
      | succ w =>
        have hdivlt : n / base < base ^ w := by
          rw [Nat.div_lt_iff_lt_mul (by omega)]
          calc n < base ^ (w + 1) := hw
            _ = base ^ w * base := by rw [Nat.pow_succ]
        have hdivfuel : n / base ≤ fuel := by
          have := Nat.div_lt_self (Nat.pos_of_ne_zero h0) hb
          omega
        have := ih (n / base) w hdivfuel hdivlt
        simp only [reprAux, h0, if_false, List.length_append, List.length_cons,
          List.length_nil]
        omega

theorem lt_pow_reprAux_length (base : Nat) (hb : 2 ≤ base) :
    ∀ fuel n, n ≤ fuel → n < base ^ (reprAux base fuel n).length := by
  intro fuel
  induction fuel with
  | zero =>
    intro n hn
    have : n = 0 := by omega
    simp [reprAux, this]
  | succ fuel ih =>
    intro n hn
    by_cases h0 : n = 0
    · simp [reprAux, h0]
    · have hdivfuel : n / base ≤ fuel := by
        have := Nat.div_lt_self (Nat.pos_of_ne_zero h0) hb
        omega
      have hdiv := ih (n / base) hdivfuel
      simp only [reprAux, h0, if_false, List.length_append, List.length_cons,
        List.length_nil]
      have hmod : n % base < base := Nat.mod_lt _ (by omega)
      have hsplit : n = base * (n / base) + n % base := (Nat.div_add_mod n base).symm
      have hle : n / base + 1 ≤ base ^ (reprAux base fuel (n / base)).length := hdiv
      calc n = base * (n / base) + n % base := hsplit
        _ < base * (n / base) + base := by omega
        _ = base * (n / base + 1) := by ring
        _ ≤ base * base ^ (reprAux base fuel (n / base)).length :=
              Nat.mul_le_mul_left base hle
        _ = base ^ ((reprAux base fuel (n / base)).length + 0 + 1) := by
              rw [Nat.pow_succ, Nat.mul_comm]
        _ = base ^ ((reprAux base fuel (n / base)).length + 1) := by rw [Nat.add_zero]

theorem reprAux_digits_lt (base : Nat) (hb : 1 ≤ base) :
    ∀ fuel n d, d ∈ reprAux base fuel n → d < base := by
  intro fuel
  induction fuel with
  | zero => intro n d hd; simp [reprAux] at hd
  | succ fuel ih =>
    intro n d hd
    by_cases h0 : n = 0
    · simp [reprAux, h0] at hd
    · simp only [reprAux, h0, if_false, List.mem_append, List.mem_cons,
        List.not_mem_nil, or_false] at hd
      rcases hd with h | h
      · exact ih (n / base) d h
      · rw [h]; exact Nat.mod_lt _ (by omega)

theorem natRepr_length_pos (base n : Nat) : 1 ≤ (natRepr base n).length := by
  unfold natRepr
  by_cases h0 : n = 0
  · simp [h0]
  · simp only [h0, if_false]
    cases n with
    | zero => exact absurd rfl h0
    | succ m =>
      simp only [reprAux]
      by_cases hz : m + 1 = 0
      · omega
      · simp [hz]

theorem natRepr_length_le (base n w : Nat) (hb : 2 ≤ base) (hw : 1 ≤ w)
    (h : n < base ^ w) : (natRepr base n).length ≤ w := by
  unfold natRepr
  by_cases h0 : n = 0
  · simp [h0]; omega
  · simp only [h0, if_false]
    exact reprAux_length_le base hb n n w le_rfl h

theorem lt_pow_natRepr_length (base n : Nat) (hb : 2 ≤ base) :
    n < base ^ (natRepr base n).length := by
  unfold natRepr
  by_cases h0 : n = 0
  · simp [h0]; omega
  · simp only [h0, if_false]
    exact lt_pow_reprAux_length base hb n n le_rfl

theorem natRepr_digits_lt (base n d : Nat) (hb : 2 ≤ base) (hd : d ∈ natRepr base n) :
    d < base := by
  unfold natRepr at hd
  by_cases h0 : n = 0
  · simp [h0] at hd; omega
  · simp only [h0, if_false] at hd
    exact reprAux_digits_lt base (by omega) n n d hd

theorem fmtPad_length (base w n : Nat) :
    (fmtPad base w n).length = max w (natRepr base n).length := by
  simp only [fmtPad, padZeros, List.length_map, List.length_append,
    List.length_replicate]
  omega

theorem fmtPad_length_eq (base w n : Nat) (hb : 2 ≤ base) (hw : 1 ≤ w)
    (h : n < base ^ w) : (fmtPad base w n).length = w := by
  rw [fmtPad_length]
  have := natRepr_length_le base n w hb hw h
  omega

theorem fmtPad_bytes_lt (base w n b : Nat) (hb : 2 ≤ base) (hb16 : base ≤ 16)
    (hmem : b ∈ fmtPad base w n) : b < 256 := by
  simp only [fmtPad, List.mem_map] at hmem
  obtain ⟨d, hd, hdc⟩ := hmem
  have hd16 : d < 16 := by
    simp only [padZeros, List.mem_append] at hd
    rcases hd with h | h
    · have := List.eq_of_mem_replicate h; omega
    · have := natRepr_digits_lt base n d hb h; omega
  rw [← hdc]
  unfold digitChar
  by_cases h10 : d < 10 <;> simp [h10] <;> omega

theorem sum_le_of_bytes_lt (l : List Nat) (h : ∀ b ∈ l, b < 256) :
    l.sum ≤ l.length * 255 := by
  induction l with
  | nil => simp
  | cons a t ih =>
    have ha : a < 256 := h a (List.mem_cons_self a t)
    have ht := ih (fun b hb => h b (List.mem_cons_of_mem a hb))
    simp only [List.sum_cons, List.length_cons]
    calc a + t.sum ≤ 255 + t.length * 255 := by omega
      _ = (t.length + 1) * 255 := by ring

namespace SimpleTarArchive

theorem hdrName_length (name : List Nat) (h : name.length ≤ 512) :
    (hdrName name).length = 512 := by
  rw [hdrName, setRange_length _ _ _ (by rw [List.length_replicate]; omega)]
  exact List.length_replicate 512 0

theorem hdrMode_length (name : List Nat) (h : name.length ≤ 512) :
    (hdrMode name).length = 512 := by
  rw [hdrMode, setRange_length _ _ _ (by rw [hdrName_length name h]; decide)]
  exact hdrName_length name h

theorem hdrOwner_length (name : List Nat) (h : name.length ≤ 512) :
    (hdrOwner name).length = 512 := by
  rw [hdrOwner, setRange_length _ _ _ (by rw [hdrMode_length name h]; decide)]
  exact hdrMode_length name h

theorem hdrGroup_length (name : List Nat) (h : name.length ≤ 512) :
    (hdrGroup name).length = 512 := by
  rw [hdrGroup, setRange_length _ _ _ (by rw [hdrOwner_length name h]; decide)]
  exact hdrOwner_length name h

theorem hdrSize_length (name : List Nat) (fileLen : Nat) (h : name.length ≤ 512)
    (hl : (fmtPad 8 11 fileLen).length = 11) :
    (hdrSize name fileLen).length = 512 := by
  rw [hdrSize, setRange_length _ _ _ (by rw [hdrGroup_length name h, hl]; omega)]
  exact hdrGroup_length name h

theorem hdrMtime_length (name : List Nat) (fileLen mtime : Nat) (h : name.length ≤ 512)
    (hl : (fmtPad 8 11 fileLen).length = 11) (hm : (fmtPad 8 11 mtime).length = 11) :
    (hdrMtime name fileLen mtime).length = 512 := by
  rw [hdrMtime, setRange_length _ _ _ (by rw [hdrSize_length name fileLen h hl, hm]; omega)]
  exact hdrSize_length name fileLen h hl

theorem hdrCksumBlank_length (name : List Nat) (fileLen mtime : Nat) (h : name.length ≤ 512)
    (hl : (fmtPad 8 11 fileLen).length = 11) (hm : (fmtPad 8 11 mtime).length = 11) :
    (hdrCksumBlank name fileLen mtime).length = 512 := by
  rw [hdrCksumBlank,
    setRange_length _ _ _ (by rw [hdrMtime_length name fileLen mtime h hl hm]; decide)]
  exact hdrMtime_length name fileLen mtime h hl hm

theorem hdrType_length (name : List Nat) (fileLen mtime : Nat) (h : name.length ≤ 512)
    (hl : (fmtPad 8 11 fileLen).length = 11) (hm : (fmtPad 8 11 mtime).length = 11) :
    (hdrType name fileLen mtime).length = 512 := by
  rw [hdrType,
    setRange_length _ _ _ (by rw [hdrCksumBlank_length name fileLen mtime h hl hm]; decide)]
  exact hdrCksumBlank_length name fileLen mtime h hl hm

theorem hdrMagic_length (name : List Nat) (fileLen mtime : Nat) (h : name.length ≤ 512)
    (hl : (fmtPad 8 11 fileLen).length = 11) (hm : (fmtPad 8 11 mtime).length = 11) :
    (hdrMagic name fileLen mtime).length = 512 := by
  rw [hdrMagic,
    setRange_length _ _ _ (by rw [hdrType_length name fileLen mtime h hl hm]; decide)]
  exact hdrType_length name fileLen mtime h hl hm

theorem headerPre_length (name : List Nat) (fileLen mtime : Nat) (h : name.length ≤ 512)
    (hl : (fmtPad 8 11 fileLen).length = 11) (hm : (fmtPad 8 11 mtime).length = 11) :
    (headerPre name fileLen mtime).length = 512 := by
  rw [headerPre,
    setRange_length _ _ _ (by rw [hdrMagic_length name fileLen mtime h hl hm]; decide)]
  exact hdrMagic_length name fileLen mtime h hl hm

theorem headerPre_placeholder (name : List Nat) (fileLen mtime : Nat) (h : name.length ≤ 512)
    (hl : (fmtPad 8 11 fileLen).length = 11) (hm : (fmtPad 8 11 mtime).length = 11) :
    ((headerPre name fileLen mtime).drop 148).take 8 = List.replicate 8 32 := by
  rw [headerPre, slice_setRange_after _ _ _ _ _ (by omega)
    (by rw [hdrMagic_length name fileLen mtime h hl hm]; omega)]
  rw [hdrMagic, slice_setRange_after _ _ _ _ _ (by omega)
    (by rw [hdrType_length name fileLen mtime h hl hm]; omega)]
  rw [hdrType, slice_setRange_after _ _ _ _ _ (by omega)
    (by rw [hdrCksumBlank_length name fileLen mtime h hl hm]; omega)]
  rw [hdrCksumBlank]
  have hs := slice_setRange_self (hdrMtime name fileLen mtime) (List.replicate 8 32) 148
    (by rw [hdrMtime_length name fileLen mtime h hl hm]; decide)
  simpa using hs

theorem headerFinal_length (name : List Nat) (fileLen mtime : Nat) (h : name.length ≤ 512)
    (hl : (fmtPad 8 11 fileLen).length = 11) (hm : (fmtPad 8 11 mtime).length = 11)
    (hc : (checksumField (tarChecksum (headerPre name fileLen mtime))).length = 7) :
    (headerFinal name fileLen mtime).length = 512 := by
  rw [headerFinal,
    setRange_length _ _ _ (by rw [headerPre_length name fileLen mtime h hl hm, hc]; omega)]
  exact headerPre_length name fileLen mtime h hl hm

theorem headerFinal_checksumField (name : List Nat) (fileLen mtime : Nat)
    (h : name.length ≤ 512) (hl : (fmtPad 8 11 fileLen).length = 11)
    (hm : (fmtPad 8 11 mtime).length = 11)
    (hc : (checksumField (tarChecksum (headerPre name fileLen mtime))).length = 7) :
    ((headerFinal name fileLen mtime).drop 148).take 8
      = fmtPad 8 6 (tarChecksum (headerPre name fileLen mtime)) ++ [0, 32] := by
  have hplen := headerPre_length name fileLen mtime h hl hm
  rw [headerFinal, drop_setRange_self _ _ _ (by rw [hplen]; omega), hc]
  rw [List.take_append_eq_append_take, hc,
    List.take_of_length_le (by rw [hc]; omega)]
  have hone : ((headerPre name fileLen mtime).drop 155).take (8 - 7) = [32] := by
    have hph := headerPre_placeholder name fileLen mtime h hl hm
    have hdt : (((headerPre name fileLen mtime).drop 148).take 8).drop 7
        = (List.replicate 8 32).drop 7 := by rw [hph]
    rw [List.drop_take, List.drop_drop] at hdt
    norm_num at hdt ⊢
    exact hdt
  rw [hone, checksumField, List.append_assoc]
  rfl

theorem mkHeader_eq_some (name : List Nat) (fileLen mtime : Nat) (hdr : List Nat)
    (h : mkHeader name fileLen mtime = some hdr) :
    name.length ≤ 512 ∧ (fmtPad 8 11 fileLen).length = 11
      ∧ (fmtPad 8 11 mtime).length = 11
      ∧ (checksumField (tarChecksum (headerPre name fileLen mtime))).length = 7
      ∧ hdr = headerFinal name fileLen mtime := by
  unfold mkHeader at h
  split at h
  · next hg => exact ⟨hg.1, hg.2.1, hg.2.2.1, hg.2.2.2, (Option.some.inj h).symm⟩
  · exact Option.noConfusion h

theorem mkHeader_some_length (name : List Nat) (fileLen mtime : Nat) (hdr : List Nat)
    (h : mkHeader name fileLen mtime = some hdr) : hdr.length = 512 := by
  obtain ⟨h1, h2, h3, h4, h5⟩ := mkHeader_eq_some name fileLen mtime hdr h
  rw [h5]
  exact headerFinal_length name fileLen mtime h1 h2 h3 h4

theorem headerFinal_modeField (name : List Nat) (fileLen mtime : Nat)
    (h : name.length ≤ 512) (hl : (fmtPad 8 11 fileLen).length = 11)
    (hm : (fmtPad 8 11 mtime).length = 11) :
    ((headerFinal name fileLen mtime).drop 100).take 7 = [48, 48, 48, 48, 52, 52, 52] := by
  rw [headerFinal, slice_setRange_after _ _ _ _ _ (by omega)
    (by rw [headerPre_length name fileLen mtime h hl hm]; omega)]
  rw [headerPre, slice_setRange_after _ _ _ _ _ (by omega)
    (by rw [hdrMagic_length name fileLen mtime h hl hm]; omega)]
  rw [hdrMagic, slice_setRange_after _ _ _ _ _ (by omega)
    (by rw [hdrType_length name fileLen mtime h hl hm]; omega)]
  rw [hdrType, slice_setRange_after _ _ _ _ _ (by omega)
    (by rw [hdrCksumBlank_length name fileLen mtime h hl hm]; omega)]
  rw [hdrCksumBlank, slice_setRange_after _ _ _ _ _ (by omega)
    (by rw [hdrMtime_length name fileLen mtime h hl hm]; omega)]
  rw [hdrMtime, slice_setRange_after _ _ _ _ _ (by omega)
    (by rw [hdrSize_length name fileLen h hl]; omega)]
  rw [hdrSize, slice_setRange_after _ _ _ _ _ (by omega)
    (by rw [hdrGroup_length name h]; omega)]
  rw [hdrGroup, slice_setRange_after _ _ _ _ _ (by omega)
    (by rw [hdrOwner_length name h]; omega)]
  rw [hdrOwner, slice_setRange_after _ _ _ _ _ (by omega)
    (by rw [hdrMode_length name h]; omega)]
  rw [hdrMode]
  have hs := slice_setRange_self (hdrName name) [48, 48, 48, 48, 52, 52, 52] 100
    (by rw [hdrName_length name h]; decide)
  simpa using hs

theorem bytes_lt_setRange (l v : List Nat) (off : Nat)
    (hl : ∀ b ∈ l, b < 256) (hv : ∀ b ∈ v, b < 256) :
    ∀ b ∈ setRange l off v, b < 256 := by
  intro b hb
  rcases mem_setRange _ _ _ _ hb with h | h
  · exact hl b h
  · exact hv b h

theorem headerPre_bytes_lt (name : List Nat) (fileLen mtime : Nat)
    (hb : ∀ x ∈ name, x < 256) :
    ∀ b ∈ headerPre name fileLen mtime, b < 256 := by
  have h0 : ∀ b ∈ (List.replicate 512 0 : List Nat), b < 256 := by
    intro b hmem; rw [List.eq_of_mem_replicate hmem]; omega
  have h1 : ∀ b ∈ hdrName name, b < 256 := by
    rw [hdrName]; exact bytes_lt_setRange _ _ _ h0 hb
  have h2 : ∀ b ∈ hdrMode name, b < 256 := by
    rw [hdrMode]
    refine bytes_lt_setRange _ _ _ h1 ?_
    intro b hmem
    simp only [List.mem_cons, List.not_mem_nil, or_false] at hmem
    omega
  have h3 : ∀ b ∈ hdrOwner name, b < 256 := by
    rw [hdrOwner]
    refine bytes_lt_setRange _ _ _ h2 ?_
    intro b hmem
    simp only [List.mem_cons, List.not_mem_nil, or_false] at hmem
    omega
  have h4 : ∀ b ∈ hdrGroup name, b < 256 := by
    rw [hdrGroup]
    refine bytes_lt_setRange _ _ _ h3 ?_
    intro b hmem
    simp only [List.mem_cons, List.not_mem_nil, or_false] at hmem
    omega
  have h5 : ∀ b ∈ hdrSize name fileLen, b < 256 := by
    rw [hdrSize]
    refine bytes_lt_setRange _ _ _ h4 ?_
    intro b hmem
    exact fmtPad_bytes_lt 8 11 fileLen b (by omega) (by omega) hmem
  have h6 : ∀ b ∈ hdrMtime name fileLen mtime, b < 256 := by
    rw [hdrMtime]
    refine bytes_lt_setRange _ _ _ h5 ?_
    intro b hmem
    exact fmtPad_bytes_lt 8 11 mtime b (by omega) (by omega) hmem
  have h7 : ∀ b ∈ hdrCksumBlank name fileLen mtime, b < 256 := by
    rw [hdrCksumBlank]
    refine bytes_lt_setRange _ _ _ h6 ?_
    intro b hmem
    rw [List.eq_of_mem_replicate hmem]; omega
  have h8 : ∀ b ∈ hdrType name fileLen mtime, b < 256 := by
    rw [hdrType]
    refine bytes_lt_setRange _ _ _ h7 ?_
    intro b hmem
    simp only [List.mem_cons, List.not_mem_nil, or_false] at hmem
    omega
  have h9 : ∀ b ∈ hdrMagic name fileLen mtime, b < 256 := by
    rw [hdrMagic]
    refine bytes_lt_setRange _ _ _ h8 ?_
    intro b hmem
    simp only [List.mem_cons, List.not_mem_nil, or_false] at hmem
    omega
  rw [headerPre]
  refine bytes_lt_setRange _ _ _ h9 ?_
  intro b hmem
  simp only [List.mem_cons, List.not_mem_nil, or_false] at hmem
  omega

theorem tarChecksum_lt (name : List Nat) (fileLen mtime : Nat)
    (hb : ∀ x ∈ name, x < 256) (hn : name.length ≤ 512)
    (hl : (fmtPad 8 11 fileLen).length = 11) (hm : (fmtPad 8 11 mtime).length = 11) :
    tarChecksum (headerPre name fileLen mtime) < 8 ^ 6 := by
  have hlen := headerPre_length name fileLen mtime hn hl hm
  have hsum := sum_le_of_bytes_lt _ (headerPre_bytes_lt name fileLen mtime hb)
  rw [hlen] at hsum
  have hpow : (8 : Nat) ^ 6 = 262144 := by norm_num
  unfold tarChecksum
  omega

theorem checksumField_length (name : List Nat) (fileLen mtime : Nat)
    (hb : ∀ x ∈ name, x < 256) (hn : name.length ≤ 512)
    (hl : (fmtPad 8 11 fileLen).length = 11) (hm : (fmtPad 8 11 mtime).length = 11) :
    (checksumField (tarChecksum (headerPre name fileLen mtime))).length = 7 := by
  unfold checksumField
  rw [List.length_append,
    fmtPad_length_eq 8 6 _ (by omega) (by omega) (tarChecksum_lt name fileLen mtime hb hn hl hm)]
  decide

theorem mkHeader_isSome (name : List Nat) (fileLen mtime : Nat)
    (hb : ∀ x ∈ name, x < 256) (hn : name.length ≤ 512)
    (hfl : fileLen < 8 ^ 11) (hmt : mtime < 8 ^ 11) :
    mkHeader name fileLen mtime = some (headerFinal name fileLen mtime) := by
  have hl := fmtPad_length_eq 8 11 fileLen (by omega) (by omega) hfl
  have hm := fmtPad_length_eq 8 11 mtime (by omega) (by omega) hmt
  have hc := checksumField_length name fileLen mtime hb hn hl hm
  unfold mkHeader
  split
  · rfl
  · next hcon => exact absurd ⟨hn, hl, hm, hc⟩ hcon

theorem mkHeader_none_of_long (name : List Nat) (fileLen mtime : Nat)
    (hn : 512 < name.length) : mkHeader name fileLen mtime = none := by
  unfold mkHeader
  split
  · next hcon => exact absurd hcon.1 (by omega)
  · rfl

theorem write_file_eq (name content : List Nat) (mtime : Nat)
    (hbn : ∀ x ∈ name, x < 256) (hn : name.length ≤ 512)
    (hfl : content.length < 8 ^ 11) (hmt : mtime < 8 ^ 11) :
    write_file name content mtime
      = some (headerFinal name content.length mtime ++ content
          ++ List.replicate (padLen content.length) 0) := by
  unfold write_file
  rw [mkHeader_isSome name content.length mtime hbn hn hfl hmt]

theorem write_file_eq_some (name content : List Nat) (mtime : Nat) (out : List Nat)
    (h : write_file name content mtime = some out) :
    mkHeader name content.length mtime = some (headerFinal name content.length mtime)
      ∧ out = headerFinal name content.length mtime ++ content
          ++ List.replicate (padLen content.length) 0 := by
  unfold write_file at h
  rcases hmk : mkHeader name content.length mtime with _ | hdr
  · rw [hmk] at h
    exact Option.noConfusion h
  · rw [hmk] at h
    obtain ⟨h1, h2, h3, h4, h5⟩ := mkHeader_eq_some name content.length mtime hdr hmk
    constructor
    · rw [h5]
    · rw [← Option.some.inj h, h5]

theorem write_file_payload (name content : List Nat) (mtime : Nat) (out : List Nat)
    (h : write_file name content mtime = some out) :
    out.drop 512 = content ++ List.replicate (padLen content.length) 0 := by
  obtain ⟨hmk, hout⟩ := write_file_eq_some name content mtime out h
  have hlen : (headerFinal name content.length mtime).length = 512 :=
    mkHeader_some_length name content.length mtime _ hmk
  rw [hout, List.append_assoc]
  exact List.drop_left' hlen

end SimpleTarArchive

theorem Task.finish_eq_some (t : Task) (index width : Nat) (h : t.ok) :
    t.finish index width = some (t.entry index width) := by
  unfold Task.finish
  cases hc : t.convert_proc with
  | none => rfl
  | some b =>
    cases b
    · exact absurd hc h
    · rfl

theorem Task.new_ok (inp : InputFile) (conversion : Conversion)
    (h : conversion = Conversion.Avif → inp.convSuccess = true) :
    (Task.new inp conversion).ok := by
  cases conversion
  · simp [Task.new, Task.ok]
  · have hs := h rfl
    simp [Task.new, Task.ok, hs]

theorem Task.new_latency (inp : InputFile) (conversion : Conversion) (n : Nat) :
    Task.new { inp with latency := n } conversion = Task.new inp conversion := by
  cases conversion <;> rfl

theorem entriesFrom_length (width index : Nat) (ts : List Task) :
    (entriesFrom width index ts).length = ts.length := by
  induction ts generalizing index with
  | nil => rfl
  | cons t ts ih => simp [entriesFrom, ih]

theorem entriesFrom_getElem? (width index k : Nat) (ts : List Task) :
    (entriesFrom width index ts)[k]?
      = ts[k]?.map (fun t => t.entry (index + k + 1) width) := by
  induction ts generalizing index k with
  | nil => simp [entriesFrom]
  | cons t ts ih =>
    cases k with
    | zero => simp [entriesFrom]
    | succ k =>
      simp only [entriesFrom, List.getElem?_cons_succ, ih (index + 1) k]
      have : index + 1 + k = index + (k + 1) := by omega
      rw [this]

theorem finishRest_ok (width : Nat) (queue : List Task) (index : Nat) (acc : List Entry)
    (h : ∀ t ∈ queue, t.ok) :
    (finishRest width queue index acc).1
      = Outcome.ok (acc.reverse ++ entriesFrom width index queue) := by
  induction queue generalizing index acc with
  | nil => simp [finishRest, entriesFrom]
  | cons t ts ih =>
    have ht : t.ok := h t (List.mem_cons_self t ts)
    simp only [finishRest, Task.finish_eq_some t (index + 1) width ht]
    rw [ih (index + 1) (t.entry (index + 1) width :: acc)
      (fun u hu => h u (List.mem_cons_of_mem t hu))]
    simp [entriesFrom, List.append_assoc]

theorem processLoop_ok (conversion : Conversion) (width : Nat) (rest : List InputFile)
    (queue : List Task) (index : Nat) (acc : List Entry)
    (h : ∀ t ∈ queue ++ rest.map (fun i => Task.new i conversion), t.ok) :
    (processLoop conversion width rest queue index acc).1
      = Outcome.ok (acc.reverse
          ++ entriesFrom width index (queue ++ rest.map (fun i => Task.new i conversion))) := by
  induction rest generalizing queue index acc with
  | nil =>
    simp only [List.map_nil, List.append_nil] at h ⊢
    exact finishRest_ok width queue index acc h
  | cons inp rest ih =>
    cases queue with
    | nil =>
      have hnew : (Task.new inp conversion).ok := by
        refine h _ ?_
        simp
      simp only [processLoop, Task.finish_eq_some _ (index + 1) width hnew]
      rw [ih [] (index + 1) ((Task.new inp conversion).entry (index + 1) width :: acc)
        (by
          intro u hu
          refine h u ?_
          simp only [List.nil_append, List.map_cons] at hu ⊢
          exact List.mem_cons_of_mem _ hu)]
      simp [entriesFrom, List.append_assoc]
    | cons t qt =>
      have ht : t.ok := h t (by simp)
      simp only [processLoop, Task.finish_eq_some t (index + 1) width ht]
      rw [ih (qt ++ [Task.new inp conversion]) (index + 1)
        (t.entry (index + 1) width :: acc)
        (by
          intro u hu
          refine h u ?_
          rw [List.map_cons]
          rcases List.mem_append.mp hu with hu2 | hu2
          · rcases List.mem_append.mp hu2 with hu3 | hu3
            · exact List.mem_cons_of_mem t (List.mem_append_left _ hu3)
            · have heq : u = Task.new inp conversion := by simpa using hu3
              rw [heq]
              exact List.mem_cons_of_mem t
                (List.mem_append_right _ (List.mem_cons_self _ _))
          · exact List.mem_cons_of_mem t
              (List.mem_append_right _ (List.mem_cons_of_mem _ hu2)))]
      simp [entriesFrom, List.append_assoc]

theorem finishRest_trace_le (width : Nat) (queue : List Task) (index : Nat)
    (acc : List Entry) :
    ∀ c ∈ (finishRest width queue index acc).2, c ≤ queue.length := by
  induction queue generalizing index acc with
  | nil => simp [finishRest]
  | cons t ts ih =>
    intro c hc
    simp only [finishRest] at hc
    cases hfin : t.finish (index + 1) width with
    | none =>
      rw [hfin] at hc
      simp only [List.mem_singleton] at hc
      simp [hc]
    | some e =>
      rw [hfin] at hc
      simp only [List.mem_cons] at hc
      rcases hc with hc | hc
      · simp [hc]
      · have := ih (index + 1) (e :: acc) c hc
        simp only [List.length_cons]
        omega

theorem processLoop_trace_le (conversion : Conversion) (width pc : Nat)
    (rest : List InputFile) (queue : List Task) (index : Nat) (acc : List Entry)
    (hq : queue.length + 1 ≤ pc) :
    ∀ c ∈ (processLoop conversion width rest queue index acc).2, c ≤ pc := by
  induction rest generalizing queue index acc with
  | nil =>
    intro c hc
    simp only [processLoop] at hc
    have := finishRest_trace_le width queue index acc c hc
    omega
  | cons inp rest ih =>
    cases queue with
    | nil =>
      intro c hc
      simp only [processLoop] at hc
      cases hfin : (Task.new inp conversion).finish (index + 1) width with
      | none =>
        rw [hfin] at hc
        simp only [List.mem_singleton] at hc
        omega
      | some e =>
        rw [hfin] at hc
        simp only [List.mem_cons] at hc
        rcases hc with hc | hc
        · omega
        · exact ih [] (index + 1) (e :: acc) (by simp; omega) c hc
    | cons t qt =>
      intro c hc
      simp only [processLoop] at hc
      cases hfin : t.finish (index + 1) width with
      | none =>
        rw [hfin] at hc
        simp only [List.mem_singleton] at hc
        simp only [List.length_cons] at hq
        omega
      | some e =>
        rw [hfin] at hc
        simp only [List.mem_cons] at hc
        simp only [List.length_cons] at hq
        rcases hc with hc | hc
        · omega
        · refine ih (qt ++ [Task.new inp conversion]) (index + 1) (e :: acc) ?_ c hc
          simp only [List.length_append, List.length_singleton]
          omega

theorem processLoop_map_latency (conversion : Conversion) (width : Nat)
    (lat : InputFile → Nat) (rest : List InputFile) (queue : List Task) (index : Nat)
    (acc : List Entry) :
    processLoop conversion width (rest.map (fun i => { i with latency := lat i }))
        queue index acc
      = processLoop conversion width rest queue index acc := by
  induction rest generalizing queue index acc with
  | nil => rfl
  | cons inp rest ih =>
    cases queue with
    | nil =>
      simp only [List.map_cons, processLoop, Task.new_latency, ih]
    | cons t qt =>
      simp only [List.map_cons, processLoop, Task.new_latency, ih]

theorem run_latency (pc : Nat) (conversion : Conversion) (inputs : List InputFile)
    (lat : InputFile → Nat) :
    run pc conversion (inputs.map fun i => { i with latency := lat i })
      = run pc conversion inputs := by
  unfold run
  simp only [List.length_map, ← List.map_take, ← List.map_drop, List.map_map]
  have hcomp : ((inputs.take (min inputs.length pc - 1)).map
        ((fun i => Task.new i conversion) ∘ fun i => { i with latency := lat i }))
      = (inputs.take (min inputs.length pc - 1)).map (fun i => Task.new i conversion) := by
    refine List.map_congr_left ?_
    intro i _
    exact Task.new_latency i conversion (lat i)
  rw [hcomp, processLoop_map_latency]

theorem run_ok (pc : Nat) (conversion : Conversion) (inputs : List InputFile)
    (hok : ∀ inp ∈ inputs, conversion = Conversion.Avif → inp.convSuccess = true) :
    (run pc conversion inputs).1
      = Outcome.ok (entriesFrom (numWidth inputs.length) 0
          (inputs.map (fun i => Task.new i conversion))) := by
  unfold run
  have h : ∀ t ∈ ((inputs.take (min inputs.length pc - 1)).map
        (fun i => Task.new i conversion))
      ++ (inputs.drop (min inputs.length pc - 1)).map (fun i => Task.new i conversion),
      t.ok := by
    intro t ht
    rw [← List.map_append, List.take_append_drop] at ht
    simp only [List.mem_map] at ht
    obtain ⟨i, hi, rfl⟩ := ht
    exact Task.new_ok i conversion (hok i hi)
  have := processLoop_ok conversion (numWidth inputs.length)
    (inputs.drop (min inputs.length pc - 1))
    ((inputs.take (min inputs.length pc - 1)).map (fun i => Task.new i conversion))
    0 [] h
  simp only [List.reverse_nil, List.nil_append] at this
  rw [← List.map_append, List.take_append_drop] at this
  exact this

/-- C1: for every run over a submitted input sequence of length N ≥ 1 whose
conversions all succeed, the archive receives exactly N entries; the k-th
entry written (1-based) is named with the zero-padded decimal index k of
width equal to the decimal digit count of N, plus an extension; entries
appear in exactly the order the inputs were submitted; and the result is
independent of how long each conversion takes (`latency`). -/
theorem C1_order_and_naming (pc : Nat) (conversion : Conversion)
    (inputs : List InputFile) (_hpc : 1 ≤ pc) (_hN : 1 ≤ inputs.length)
    (hok : ∀ inp ∈ inputs, conversion = Conversion.Avif → inp.convSuccess = true) :
    ∃ es : List Entry, (run pc conversion inputs).1 = Outcome.ok es
      ∧ es.length = inputs.length
      ∧ (∀ k inp, inputs[k]? = some inp →
          es[k]? = some (Entry.mk
            (fmtPad 10 (numWidth inputs.length) (k + 1)
              ++ (Task.new inp conversion).archiveExt)
            ((Task.new inp conversion).pathContent)))
      ∧ (∀ k, k < inputs.length →
          (fmtPad 10 (numWidth inputs.length) (k + 1)).length = numWidth inputs.length)
      ∧ (∀ lat : InputFile → Nat,
          (run pc conversion (inputs.map fun i => { i with latency := lat i })).1
            = (run pc conversion inputs).1) := by
  refine ⟨entriesFrom (numWidth inputs.length) 0
      (inputs.map fun i => Task.new i conversion),
    run_ok pc conversion inputs hok, ?_, ?_, ?_, ?_⟩
  · rw [entriesFrom_length, List.length_map]
  · intro k inp hk
    rw [entriesFrom_getElem?, List.getElem?_map, hk]
    simp [Task.entry]
  · intro k hkN
    have hw1 : 1 ≤ numWidth inputs.length := natRepr_length_pos 10 inputs.length
    have hlt : k + 1 < 10 ^ numWidth inputs.length :=
      lt_of_le_of_lt (by omega) (lt_pow_natRepr_length 10 inputs.length (by omega))
    exact fmtPad_length_eq 10 _ (k + 1) (by omega) hw1 hlt
  · intro lat
    rw [run_latency]

/-- Witness for C1: a concrete two-input Copy run. -/
theorem C1_order_and_naming_witness :
    1 ≤ 2
    ∧ 1 ≤ ([{ srcExt := some [80, 78, 71], content := [1], convOutput := [],
              convSuccess := true, latency := 0 },
            { srcExt := none, content := [2, 3], convOutput := [],
              convSuccess := true, latency := 9 }] : List InputFile).length
    ∧ ∃ es : List Entry, (run 2 Conversion.Copy
        [{ srcExt := some [80, 78, 71], content := [1], convOutput := [],
           convSuccess := true, latency := 0 },
         { srcExt := none, content := [2, 3], convOutput := [],
           convSuccess := true, latency := 9 }]).1 = Outcome.ok es
      ∧ es.length = 2 := by
  obtain ⟨es, h1, h2, _⟩ := C1_order_and_naming 2 Conversion.Copy
    [{ srcExt := some [80, 78, 71], content := [1], convOutput := [],
       convSuccess := true, latency := 0 },
     { srcExt := none, content := [2, 3], convOutput := [],
       convSuccess := true, latency := 9 }]
    (by decide) (by decide) (by decide)
  exact ⟨by decide, by decide, es, h1, by simpa using h2⟩

/-- C2 (code-bug evidence): in an `--avif` run over two inputs with
concurrency ceiling 2 in which the second conversion process exits with
failure, the pipeline stops with exit code 1 having written only the first
entry — neither the failing entry nor any later one reaches the archive —
but the work directory is NOT removed: `Task::finish` (main.rs line 214)
calls `std::process::exit(1)`, which terminates the process without
running destructors, so `TempDir::drop` (lines 76-80) never executes.
This contradicts the claim that the scoped work directory is removed
before the process exits. -/
theorem C2_convert_failure_exit :
    run 2 Conversion.Avif
      [{ srcExt := none, content := [], convOutput := [10, 20],
         convSuccess := true, latency := 0 },
       { srcExt := none, content := [], convOutput := [],
         convSuccess := false, latency := 5 }]
      = (Outcome.exited 1
          [{ name := [49, 46, 97, 118, 105, 102], payload := [10, 20] }] false,
         [1, 2, 1]) := by
  decide

/-- C3: for every entry header produced by `write_file`, the stored checksum
equals the unsigned sum of all 512 header bytes computed while the
checksum field holds its 8-space placeholder, and it is stored as a
6-digit octal ASCII string followed by a NUL byte followed by one trailing
space byte at offsets 148..156 of the written header. -/
theorem C3_checksum_field (name content : List Nat) (mtime : Nat) (out : List Nat)
    (h : SimpleTarArchive.write_file name content mtime = some out) :
    (SimpleTarArchive.headerPre name content.length mtime).length = 512
    ∧ ((SimpleTarArchive.headerPre name content.length mtime).drop 148).take 8
        = List.replicate 8 32
    ∧ ((out.take 512).drop 148).take 8
        = fmtPad 8 6 ((SimpleTarArchive.headerPre name content.length mtime).sum)
            ++ [0, 32]
    ∧ (fmtPad 8 6 ((SimpleTarArchive.headerPre name content.length mtime).sum)).length
        = 6 := by
  obtain ⟨hmk, hout⟩ := SimpleTarArchive.write_file_eq_some name content mtime out h
  obtain ⟨h1, h2, h3, h4, _⟩ :=
    SimpleTarArchive.mkHeader_eq_some name content.length mtime _ hmk
  have hfl := SimpleTarArchive.headerFinal_length name content.length mtime h1 h2 h3 h4
  have htake : out.take 512 = SimpleTarArchive.headerFinal name content.length mtime := by
    rw [hout, List.append_assoc]
    exact List.take_left' hfl
  have hsum : SimpleTarArchive.tarChecksum
        (SimpleTarArchive.headerPre name content.length mtime)
      = (SimpleTarArchive.headerPre name content.length mtime).sum := rfl
  refine ⟨SimpleTarArchive.headerPre_length name content.length mtime h1 h2 h3,
    SimpleTarArchive.headerPre_placeholder name content.length mtime h1 h2 h3, ?_, ?_⟩
  · rw [htake, ← hsum]
    exact SimpleTarArchive.headerFinal_checksumField name content.length mtime h1 h2 h3 h4
  · rw [← hsum]
    have h4' := h4
    unfold SimpleTarArchive.checksumField at h4'
    simp only [List.length_append, List.length_singleton] at h4'
    omega

/-- Witness for C3 at a concrete write of a 2-byte file named `"1.a"`. -/
theorem C3_checksum_field_witness :
    SimpleTarArchive.write_file [49, 46, 97] [1, 2] 0
      = some (SimpleTarArchive.headerFinal [49, 46, 97] 2 0 ++ [1, 2]
          ++ List.replicate (SimpleTarArchive.padLen 2) 0)
    ∧ (((SimpleTarArchive.headerFinal [49, 46, 97] 2 0 ++ [1, 2]
          ++ List.replicate (SimpleTarArchive.padLen 2) 0).take 512).drop 148).take 8
        = fmtPad 8 6 ((SimpleTarArchive.headerPre [49, 46, 97] 2 0).sum) ++ [0, 32] := by
  have h : SimpleTarArchive.write_file [49, 46, 97] [1, 2] 0
      = some (SimpleTarArchive.headerFinal [49, 46, 97] 2 0 ++ [1, 2]
          ++ List.replicate (SimpleTarArchive.padLen 2) 0) :=
    SimpleTarArchive.write_file_eq [49, 46, 97] [1, 2] 0 (by decide) (by decide)
      (by decide) (by decide)
  exact ⟨h, (C3_checksum_field [49, 46, 97] [1, 2] 0 _ h).2.2.1⟩

/-- C4: when the archive writer is released, it appends exactly two
consecutive all-zero 512-byte blocks after the bytes already written and
then flushes the byte sink, so every produced archive stream ends with
1024 zero bytes. -/
theorem C4_end_of_archive_marker (out : List Nat) :
    SimpleTarArchive.dropFlush out
      = (out ++ (List.replicate 512 0 ++ List.replicate 512 0), true)
    ∧ List.replicate 1024 (0 : Nat) <:+ (SimpleTarArchive.dropFlush out).1
    ∧ (SimpleTarArchive.dropFlush out).2 = true := by
  have hz : SimpleTarArchive.ZEROS
      = (List.replicate 512 0 ++ List.replicate 512 0 : List Nat) := by
    rw [← List.replicate_add]
    rfl
  refine ⟨?_, ⟨out, rfl⟩, rfl⟩
  unfold SimpleTarArchive.dropFlush
  rw [hz]

/-- C5 counterexample: in `--avif` mode, an input whose extension is already
`avif` (equal, even case-sensitively, to the target extension) is
nonetheless given a Convert task that spawns the external process —
`convert_proc` is not `none` and the task is not a Copy task — refuting
the claim that an input already carrying the target extension is treated
as a Copy job with no subprocess. -/
theorem C5_counterexample :
    (Task.new
        { srcExt := some [97, 118, 105, 102], content := [7], convOutput := [9],
          convSuccess := true, latency := 0 } Conversion.Avif).convert_proc ≠ none
    ∧ (Task.new
        { srcExt := some [97, 118, 105, 102], content := [7], convOutput := [9],
          convSuccess := true, latency := 0 } Conversion.Avif).conversion
        ≠ Conversion.Copy := by
  decide

/-- C5 (amended): the decision between Copy and Convert is a function of the
run's command-line mode alone, not of the input's extension: every task's
kind equals the run mode, and a subprocess is spawned (`convert_proc` is
set) iff the mode is not Copy. -/
theorem C5_mode_decides_conversion (inp : InputFile) (conversion : Conversion) :
    (Task.new inp conversion).conversion = conversion
    ∧ ((Task.new inp conversion).convert_proc = none ↔ conversion = Conversion.Copy) := by
  cases conversion <;> simp [Task.new]

/-- C6: at every point during a run over N ≥ 1 inputs, the number of
conversion jobs created and not yet flushed (recorded in the run's
in-flight trace, and an upper bound on simultaneously alive conversion
processes) is at most the concurrency ceiling `pc`, the value of
`available_parallelism`. -/
theorem C6_concurrency_bounded (pc : Nat) (conversion : Conversion)
    (inputs : List InputFile) (hpc : 1 ≤ pc) (hN : 1 ≤ inputs.length) :
    ∀ c ∈ (run pc conversion inputs).2, c ≤ pc := by
  intro c hc
  unfold run at hc
  simp only [List.mem_append] at hc
  rcases hc with hc | hc
  · simp only [List.mem_map, List.mem_range] at hc
    obtain ⟨i, hi, rfl⟩ := hc
    have hmin : min inputs.length pc ≤ pc := Nat.min_le_right _ _
    omega
  · refine processLoop_trace_le conversion _ pc _ _ _ _ ?_ c hc
    have hq : ((inputs.take (min inputs.length pc - 1)).map
          (fun i => Task.new i conversion)).length
        = min inputs.length pc - 1 := by
      simp only [List.length_map, List.length_take]
      omega
    rw [hq]
    have hmin1 : 1 ≤ min inputs.length pc := by omega
    have hmin2 : min inputs.length pc ≤ pc := Nat.min_le_right _ _
    omega

/-- Witness for C6: a concrete three-input Copy run with ceiling 2. -/
theorem C6_concurrency_bounded_witness :
    1 ≤ 2
    ∧ ∀ c ∈ (run 2 Conversion.Copy
        [{ srcExt := none, content := [1], convOutput := [],
           convSuccess := true, latency := 0 },
         { srcExt := none, content := [2], convOutput := [],
           convSuccess := true, latency := 0 },
         { srcExt := none, content := [3], convOutput := [],
           convSuccess := true, latency := 0 }]).2, c ≤ 2 :=
  ⟨by decide, C6_concurrency_bounded 2 Conversion.Copy
    [{ srcExt := none, content := [1], convOutput := [],
       convSuccess := true, latency := 0 },
     { srcExt := none, content := [2], convOutput := [],
       convSuccess := true, latency := 0 },
     { srcExt := none, content := [3], convOutput := [],
       convSuccess := true, latency := 0 }] (by decide) (by decide)⟩

/-- C7: for every entry written by `write_file`, the payload region (the
bytes after the 512-byte header) occupies a multiple of 512 bytes: after
the file content, zero bytes are appended up to the next 512-byte boundary
when the file size is not a multiple of 512, and no padding is appended
when it is. -/
theorem C7_payload_padding (name content : List Nat) (mtime : Nat) (out : List Nat)
    (h : SimpleTarArchive.write_file name content mtime = some out) :
    (out.drop 512).length % 512 = 0
    ∧ (out.drop 512).take content.length = content
    ∧ (out.drop 512).drop content.length
        = List.replicate (SimpleTarArchive.padLen content.length) 0
    ∧ (∀ b ∈ (out.drop 512).drop content.length, b = 0)
    ∧ (content.length % 512 = 0 → (out.drop 512).drop content.length = [])
    ∧ (content.length % 512 ≠ 0 →
        SimpleTarArchive.padLen content.length = 512 - content.length % 512) := by
  have hp := SimpleTarArchive.write_file_payload name content mtime out h
  have hlen : (out.drop 512).length
      = content.length + SimpleTarArchive.padLen content.length := by
    rw [hp]
    simp [List.length_append]
  have htake : (out.drop 512).take content.length = content := by
    rw [hp]
    exact List.take_left' rfl
  have hdrop : (out.drop 512).drop content.length
      = List.replicate (SimpleTarArchive.padLen content.length) 0 := by
    rw [hp]
    exact List.drop_left' rfl
  refine ⟨?_, htake, hdrop, ?_, ?_, ?_⟩
  · rw [hlen]
    unfold SimpleTarArchive.padLen
    split
    · next h0 => omega
    · next h0 => omega
  · intro b hb
    rw [hdrop] at hb
    exact List.eq_of_mem_replicate hb
  · intro h0
    rw [hdrop]
    unfold SimpleTarArchive.padLen
    rw [if_pos h0]
    rfl
  · intro h0
    unfold SimpleTarArchive.padLen
    rw [if_neg h0]

/-- Witness for C7 at a concrete write of a 3-byte file. -/
theorem C7_payload_padding_witness :
    SimpleTarArchive.write_file [50] [1, 2, 3] 0
      = some (SimpleTarArchive.headerFinal [50] 3 0 ++ [1, 2, 3]
          ++ List.replicate (SimpleTarArchive.padLen 3) 0)
    ∧ (((SimpleTarArchive.headerFinal [50] 3 0 ++ [1, 2, 3]
          ++ List.replicate (SimpleTarArchive.padLen 3) 0).drop 512).length % 512 = 0
        ∧ ((SimpleTarArchive.headerFinal [50] 3 0 ++ [1, 2, 3]
          ++ List.replicate (SimpleTarArchive.padLen 3) 0).drop 512).take 3 = [1, 2, 3]) := by
  have h : SimpleTarArchive.write_file [50] [1, 2, 3] 0
      = some (SimpleTarArchive.headerFinal [50] 3 0 ++ [1, 2, 3]
          ++ List.replicate (SimpleTarArchive.padLen 3) 0) :=
    SimpleTarArchive.write_file_eq [50] [1, 2, 3] 0 (by decide) (by decide)
      (by decide) (by decide)
  have hc := C7_payload_padding [50] [1, 2, 3] 0 _ h
  exact ⟨h, hc.1, hc.2.1⟩

/-- C8 counterexample: two Convert jobs of one run — say those with sequence
indices 1 and 2 — whose `generate_unique_file_name` calls observe the same
nanosecond sample 42 while the work directory is still empty (spawning is
asynchronous, so job 1's encoder need not have created its output yet)
receive the SAME intermediate file name `"0000002a.avif"`.  The name is
the hex rendering of the clock sample; the job's unique sequence index is
not an input to the name generator at all.  This refutes the claim that
intermediate names derive from the sequence index and that no two Convert
jobs ever share an intermediate filename. -/
theorem C8_counterexample :
    (twoConvertNames (fun _ => 42) (fun _ => 42) []).1
      = (twoConvertNames (fun _ => 42) (fun _ => 42) []).2
    ∧ (twoConvertNames (fun _ => 42) (fun _ => 42) []).1
      = some [48, 48, 48, 48, 48, 48, 50, 97, 46, 97, 118, 105, 102] := by
  decide

/-- C8 (amended): every Convert job's intermediate output name is derived
from a nanosecond clock sample — rendered as 8 lowercase hex digits plus
the extension — resampled until the candidate names no existing file; the
returned path therefore names no file existing at the moment of
generation.  Names do not derive from the job's sequence index, and two
jobs can share a name when a clock sample repeats while the earlier job's
output file does not yet exist. -/
theorem C8_unique_name_generation (fuel k : Nat) (ts : Nat → Nat) (ext : List Nat)
    (existing : List (List Nat)) (name : List Nat)
    (h : generate_unique_file_name fuel k ts ext existing = some name) :
    name ∉ existing ∧ ∃ j, name = fmtPad 16 8 (ts j) ++ ext := by
  induction fuel generalizing k with
  | zero => exact Option.noConfusion h
  | succ fuel ih =>
    simp only [generate_unique_file_name] at h
    by_cases hmem : fmtPad 16 8 (ts k) ++ ext ∈ existing
    · rw [if_pos hmem] at h
      exact ih (k + 1) h
    · rw [if_neg hmem] at h
      have hname := Option.some.inj h
      refine ⟨?_, k, hname.symm⟩
      rw [← hname]
      exact hmem

/-- Witness for C8 (amended) at sample 42 against a one-file directory. -/
theorem C8_unique_name_generation_witness :
    generate_unique_file_name 4 0 (fun _ => 42) extAvif [[48]]
      = some (fmtPad 16 8 42 ++ extAvif)
    ∧ (fmtPad 16 8 42 ++ extAvif) ∉ [[48]]
    ∧ ∃ j : Nat, fmtPad 16 8 42 ++ extAvif
        = fmtPad 16 8 ((fun _ => (42 : Nat)) j) ++ extAvif := by
  have h : generate_unique_file_name 4 0 (fun _ => 42) extAvif [[48]]
      = some (fmtPad 16 8 42 ++ extAvif) := by decide
  have hc := C8_unique_name_generation 4 0 (fun _ => 42) extAvif [[48]] _ h
  exact ⟨h, hc.1, hc.2⟩

/-- C9: for every Copy job whose source file `write_file` succeeds on, the
payload bytes written into the archive for that entry (excluding the zero
padding) are byte-identical to the source file's bytes — the file is read
to end — and `Task::finish` does not delete the source. -/
theorem C9_copy_roundtrip (inp : InputFile) (name : List Nat) (mtime : Nat)
    (out : List Nat)
    (h : SimpleTarArchive.write_file name
        (Task.new inp Conversion.Copy).pathContent mtime = some out) :
    (Task.new inp Conversion.Copy).pathContent = inp.content
    ∧ (out.drop 512).take inp.content.length = inp.content
    ∧ Task.removesSource (Task.new inp Conversion.Copy) = false := by
  have hpc : (Task.new inp Conversion.Copy).pathContent = inp.content := rfl
  rw [hpc] at h
  have hp := SimpleTarArchive.write_file_payload name inp.content mtime out h
  refine ⟨rfl, ?_, rfl⟩
  rw [hp]
  exact List.take_left' rfl

/-- Witness for C9 at a concrete Copy task over a 2-byte source file. -/
theorem C9_copy_roundtrip_witness :
    SimpleTarArchive.write_file [49] [5, 6] 0
      = some (SimpleTarArchive.headerFinal [49] 2 0 ++ [5, 6]
          ++ List.replicate (SimpleTarArchive.padLen 2) 0)
    ∧ ((SimpleTarArchive.headerFinal [49] 2 0 ++ [5, 6]
          ++ List.replicate (SimpleTarArchive.padLen 2) 0).drop 512).take 2 = [5, 6]
    ∧ Task.removesSource (Task.new
        { srcExt := some [97], content := [5, 6], convOutput := [],
           convSuccess := true, latency := 0 } Conversion.Copy) = false := by
  have h : SimpleTarArchive.write_file [49] [5, 6] 0
      = some (SimpleTarArchive.headerFinal [49] 2 0 ++ [5, 6]
          ++ List.replicate (SimpleTarArchive.padLen 2) 0) :=
    SimpleTarArchive.write_file_eq [49] [5, 6] 0 (by decide) (by decide)
      (by decide) (by decide)
  have hc := C9_copy_roundtrip
    { srcExt := some [97], content := [5, 6], convOutput := [],
       convSuccess := true, latency := 0 } [49] 0 _ h
  exact ⟨h, hc.2.1, hc.2.2⟩

/-- C10: `write_file` performs no validation of the archive name against the
100-byte name field: for every name of byte length at most 512 (and sizes
within the octal field ranges) the call proceeds with no name-related
error — and the fixed fields that follow the name field are written over
whatever name bytes reached them, e.g. offsets 100..107 always hold
`"0000444"` — while for every name longer than 512 bytes the header
construction panics (modelled as `none`) instead of returning an error. -/
theorem C10_no_name_length_validation (name content : List Nat) (mtime : Nat)
    (hb : ∀ x ∈ name, x < 256) (hfl : content.length < 8 ^ 11)
    (hmt : mtime < 8 ^ 11) :
    (name.length ≤ 512 →
      SimpleTarArchive.write_file name content mtime
        = some (SimpleTarArchive.headerFinal name content.length mtime ++ content
            ++ List.replicate (SimpleTarArchive.padLen content.length) 0)
      ∧ ((SimpleTarArchive.headerFinal name content.length mtime).drop 100).take 7
          = [48, 48, 48, 48, 52, 52, 52])
    ∧ (512 < name.length → SimpleTarArchive.write_file name content mtime = none) := by
  constructor
  · intro hn
    have hl := fmtPad_length_eq 8 11 content.length (by omega) (by omega) hfl
    have hm := fmtPad_length_eq 8 11 mtime (by omega) (by omega) hmt
    exact ⟨SimpleTarArchive.write_file_eq name content mtime hb hn hfl hmt,
      SimpleTarArchive.headerFinal_modeField name content.length mtime hn hl hm⟩
  · intro hn
    unfold SimpleTarArchive.write_file
    rw [SimpleTarArchive.mkHeader_none_of_long name content.length mtime hn]

set_option maxRecDepth 4000 in
/-- Witness for C10 at a 513-byte name: the header construction panics. -/
theorem C10_no_name_length_validation_witness :
    (∀ x ∈ List.replicate 513 97, x < 256)
    ∧ ((List.replicate 513 97 : List Nat).length ≤ 512 →
        SimpleTarArchive.write_file (List.replicate 513 97) [1] 0
          = some (SimpleTarArchive.headerFinal (List.replicate 513 97) 1 0 ++ [1]
              ++ List.replicate (SimpleTarArchive.padLen 1) 0)
        ∧ ((SimpleTarArchive.headerFinal (List.replicate 513 97) 1 0).drop 100).take 7
            = [48, 48, 48, 48, 52, 52, 52])
    ∧ (512 < (List.replicate 513 97 : List Nat).length →
        SimpleTarArchive.write_file (List.replicate 513 97) [1] 0 = none) := by
  have hc := C10_no_name_length_validation (List.replicate 513 97) [1] 0
    (by decide) (by decide) (by decide)
  exact ⟨by decide, hc.1, hc.2⟩

end Mkcbt
